import Mathlib

/-! # Verification of the intelligent-hr-assistant request-processing core

Shallow embedding of the request-processing core of the HR RAG service:
the sliding-window rate limiter (`src/lib/api/rate-limit.ts`), bearer-token
authentication (`lib/auth/bearer.ts`), the retrieval core
(`lib/services/retrieval.ts`), chat-internal retrieval (`lib/services/chat.ts`),
the payload-size check (`lib/api/errors.ts`) and the metrics summary
(`lib/api/metrics.ts`), together with theorems settling the specification's
claims about them.

Conventions: JavaScript numbers that carry similarity scores and latencies are
modelled as exact rationals; millisecond timestamps are integers; fallible
operations return `Option`/`Except`.  Each definition mirrors the source
function named in its doc comment. -/

namespace HrCore

/-! ## Rate limiter (`src/lib/api/rate-limit.ts`) -/

/-- The `RateLimitResult` record returned by `checkRateLimit`.
`retryAfter = none` models the absent optional field. -/
structure RateLimitResult where
  allowed : Bool
  remaining : ℕ
  resetAt : ℤ
  retryAfter : Option ℤ
deriving DecidableEq, Repr

/-- Shape of `RateLimitConfig`.  The source leaves `windowMs` optional with the
destructuring default `60000` inside `checkRateLimit`; the embedding stores the
effective value explicitly. -/
structure RateLimitConfig where
  endpoint : String
  maxRequests : ℕ
  windowMs : ℤ
deriving DecidableEq, Repr

/-- The `RateLimits.chat` entry: 20 requests per 60 s window. -/
def RateLimits.chat : RateLimitConfig := ⟨"chat", 20, 60000⟩

/-- The `RateLimits.retrieve` entry: 60 requests per 60 s window. -/
def RateLimits.retrieve : RateLimitConfig := ⟨"retrieve", 60, 60000⟩

/-- The module-level `store : Map<string, RateLimitEntry>`; `none` models an
absent key, `some ts` a present entry with timestamp list `ts`. -/
def RLStore : Type := String → Option (List ℤ)

/-- The store at process start: empty. -/
def emptyStore : RLStore := fun _ => none

/-- Update of the store at a single key (`Map.set` / `Map.delete`). -/
def setKey (store : RLStore) (k : String) (v : Option (List ℤ)) : RLStore :=
  fun k2 => if k2 = k then v else store k2

/-- The rate-limit key built in `checkRateLimit`: `` `${endpoint}:${token}` ``. -/
def rlKey (endpoint token : String) : String := endpoint ++ ":" ++ token

/-- Model of `cleanupExpiredTimestamps` (rate-limit.ts): keep timestamps with
`now - ts < windowMs`; delete the key if none survive. -/
def cleanupExpiredTimestamps (key : String) (now windowMs : ℤ) (store : RLStore) : RLStore :=
  match store key with
  | none => store
  | some ts =>
    let kept := ts.filter (fun t => now - t < windowMs)
    if kept.isEmpty then setKey store key none else setKey store key (some kept)

/-- Integer form of `Math.ceil(a / b)` (the division is exact in the source's float
range); requires `0 < b` to agree with the mathematical ceiling. -/
def jsCeilDiv (a b : ℤ) : ℤ := -((-a).fdiv b)

/-- The timestamp list `checkRateLimit` works on after the cleanup pass
(an absent entry is re-created empty). -/
def prunedAt (key : String) (now windowMs : ℤ) (store : RLStore) : List ℤ :=
  ((cleanupExpiredTimestamps key now windowMs store) key).getD []

/-- Model of `checkRateLimit` (rate-limit.ts): prune, then either reject (entry full)
or append `now`; returns the result together with the updated store. -/
def checkRateLimit (token : String) (cfg : RateLimitConfig) (now : ℤ) (store : RLStore) :
    RateLimitResult × RLStore :=
  let key := rlKey cfg.endpoint token
  let s1 := cleanupExpiredTimestamps key now cfg.windowMs store
  let ts := (s1 key).getD []
  if cfg.maxRequests ≤ ts.length then
    (⟨false, 0, ts.headD 0 + cfg.windowMs,
       some (jsCeilDiv (ts.headD 0 + cfg.windowMs - now) 1000)⟩,
     setKey s1 key (some ts))
  else
    (⟨true, cfg.maxRequests - (ts.length + 1), now + cfg.windowMs, none⟩,
     setKey s1 key (some (ts ++ [now])))

theorem cleanup_key_eq (key : String) (now windowMs : ℤ) (store : RLStore) :
    (cleanupExpiredTimestamps key now windowMs store) key =
      if (((store key).getD []).filter (fun t => now - t < windowMs)).isEmpty then none
      else some (((store key).getD []).filter (fun t => now - t < windowMs)) := by
  unfold cleanupExpiredTimestamps
  cases h : store key with
  | none => simp [h]
  | some ts =>
    simp only [Option.getD_some]
    split
    · simp_all [setKey]
    · simp_all [setKey]

theorem cleanup_other_key (key : String) (now windowMs : ℤ) (store : RLStore)
    (k : String) (hk : k ≠ key) :
    (cleanupExpiredTimestamps key now windowMs store) k = store k := by
  unfold cleanupExpiredTimestamps
  cases h : store key with
  | none => rfl
  | some ts =>
    simp only []
    split <;> simp [setKey, hk]

theorem prunedAt_eq (key : String) (now windowMs : ℤ) (store : RLStore) :
    prunedAt key now windowMs store =
      ((store key).getD []).filter (fun t => now - t < windowMs) := by
  unfold prunedAt
  rw [cleanup_key_eq]
  split <;> simp_all

theorem checkRateLimit_full (token : String) (cfg : RateLimitConfig) (now : ℤ) (store : RLStore)
    (hfull : cfg.maxRequests ≤ (prunedAt (rlKey cfg.endpoint token) now cfg.windowMs store).length) :
    checkRateLimit token cfg now store =
      (⟨false, 0,
         (prunedAt (rlKey cfg.endpoint token) now cfg.windowMs store).headD 0 + cfg.windowMs,
         some (jsCeilDiv
           ((prunedAt (rlKey cfg.endpoint token) now cfg.windowMs store).headD 0 +
             cfg.windowMs - now) 1000)⟩,
       setKey (cleanupExpiredTimestamps (rlKey cfg.endpoint token) now cfg.windowMs store)
         (rlKey cfg.endpoint token)
         (some (prunedAt (rlKey cfg.endpoint token) now cfg.windowMs store))) := by
  simp only [checkRateLimit, prunedAt] at *
  rw [if_pos hfull]

theorem checkRateLimit_open (token : String) (cfg : RateLimitConfig) (now : ℤ) (store : RLStore)
    (hopen : (prunedAt (rlKey cfg.endpoint token) now cfg.windowMs store).length <
      cfg.maxRequests) :
    checkRateLimit token cfg now store =
      (⟨true,
         cfg.maxRequests -
           ((prunedAt (rlKey cfg.endpoint token) now cfg.windowMs store).length + 1),
         now + cfg.windowMs, none⟩,
       setKey (cleanupExpiredTimestamps (rlKey cfg.endpoint token) now cfg.windowMs store)
         (rlKey cfg.endpoint token)
         (some (prunedAt (rlKey cfg.endpoint token) now cfg.windowMs store ++ [now]))) := by
  simp only [checkRateLimit, prunedAt] at *
  rw [if_neg (by omega)]

/-- The integer form of `Math.ceil(a / 1000)` agrees with the exact rational ceiling. -/
theorem jsCeilDiv_eq_ceil (a : ℤ) : jsCeilDiv a 1000 = ⌈(a : ℚ) / 1000⌉ := by
  unfold jsCeilDiv
  rw [Int.fdiv_eq_ediv _ (by norm_num)]
  have h2 : ((-a : ℤ) : ℚ) / ((1000 : ℕ) : ℚ) = -((a : ℚ) / 1000) := by push_cast; ring
  have h3 := Rat.floor_intCast_div_natCast (-a) 1000
  rw [h2] at h3
  rw [Int.floor_neg] at h3
  omega

/-- One caller hitting one endpoint repeatedly at the given times. -/
def rlCallTimes (token : String) (cfg : RateLimitConfig) :
    RLStore → List ℤ → List RateLimitResult × RLStore
  | store, [] => ([], store)
  | store, t :: ts =>
    let step := checkRateLimit token cfg t store
    let rest := rlCallTimes token cfg step.2 ts
    (step.1 :: rest.1, rest.2)

/-- Expected results of a run that stays inside a fresh window: the call after
`k` earlier successes is allowed with `remaining = maxRequests - (k + 1)`. -/
def freshResults (m : ℕ) (W : ℤ) : ℕ → List ℤ → List RateLimitResult
  | _, [] => []
  | k, t :: ts => ⟨true, m - (k + 1), t + W, none⟩ :: freshResults m W (k + 1) ts

theorem rlCallTimes_fresh (token : String) (cfg : RateLimitConfig) :
    ∀ (times prev : List ℤ) (store : RLStore),
      (store (rlKey cfg.endpoint token) = some prev ∨
        (store (rlKey cfg.endpoint token) = none ∧ prev = [])) →
      prev.length + times.length ≤ cfg.maxRequests →
      (∀ t ∈ prev, ∀ u ∈ times, t ≤ u) →
      times.Pairwise (· ≤ ·) →
      (∀ t, (t ∈ prev ∨ t ∈ times) → ∀ u, (u ∈ prev ∨ u ∈ times) →
        t ≤ u → u - t < cfg.windowMs) →
      (rlCallTimes token cfg store times).1 =
        freshResults cfg.maxRequests cfg.windowMs prev.length times := by
  intro times
  induction times with
  | nil =>
    intro prev store _ _ _ _ _
    rfl
  | cons t ts ih =>
    intro prev store hst hlen hpt hpw hwin
    have hgetD : (store (rlKey cfg.endpoint token)).getD [] = prev := by
      rcases hst with h | ⟨h, rfl⟩ <;> simp [h]
    have hkeep : prunedAt (rlKey cfg.endpoint token) t cfg.windowMs store = prev := by
      rw [prunedAt_eq, hgetD]
      apply List.filter_eq_self.mpr
      intro x hx
      have hxt : x ≤ t := hpt x hx t (by simp)
      have := hwin x (Or.inl hx) t (Or.inr (by simp)) hxt
      simpa using this
    have hopen : (prunedAt (rlKey cfg.endpoint token) t cfg.windowMs store).length <
        cfg.maxRequests := by
      rw [hkeep]
      simp only [List.length_cons] at hlen
      omega
    simp only [rlCallTimes]
    rw [checkRateLimit_open token cfg t store hopen]
    simp only [hkeep, freshResults, List.cons.injEq, true_and]
    have hres := ih (prev ++ [t])
        (setKey (cleanupExpiredTimestamps (rlKey cfg.endpoint token) t cfg.windowMs store)
          (rlKey cfg.endpoint token) (some (prev ++ [t])))
        (by left; simp [setKey])
        (by simp only [List.length_append, List.length_cons, List.length_nil] at hlen ⊢; omega)
        (by
          intro x hx u hu
          rcases List.mem_append.mp hx with hx' | hx'
          · exact hpt x hx' u (List.mem_cons_of_mem _ hu)
          · have hxt : x = t := by simpa using hx'
            subst hxt
            exact (List.pairwise_cons.mp hpw).1 u hu)
        ((List.pairwise_cons.mp hpw).2)
        (by
          intro x hx u hu hxu
          apply hwin x ?_ u ?_ hxu
          · rcases hx with hx' | hx'
            · rcases List.mem_append.mp hx' with h | h
              · exact Or.inl h
              · right; simp at h; simp [h]
            · exact Or.inr (List.mem_cons_of_mem _ hx')
          · rcases hu with hu' | hu'
            · rcases List.mem_append.mp hu' with h | h
              · exact Or.inl h
              · right; simp at h; simp [h]
            · exact Or.inr (List.mem_cons_of_mem _ hu'))
    rw [hres]
    simp [List.length_append]

/-- Claim C10: a `checkRateLimit` call that is rejected never appends a
timestamp: apart from the pruning pass, the store is left unchanged, so a
rejected request never postpones the time at which capacity frees up. -/
theorem checkRateLimit_reject_leaves_state
    (token : String) (cfg : RateLimitConfig) (now : ℤ) (store : RLStore)
    (hmax : 1 ≤ cfg.maxRequests)
    (hrej : (checkRateLimit token cfg now store).1.allowed = false) :
    (checkRateLimit token cfg now store).2 =
      cleanupExpiredTimestamps (rlKey cfg.endpoint token) now cfg.windowMs store := by
  by_cases hfull : cfg.maxRequests ≤
      (prunedAt (rlKey cfg.endpoint token) now cfg.windowMs store).length
  · rw [checkRateLimit_full token cfg now store hfull]
    funext k2
    simp only [setKey]
    split
    next hk =>
      subst hk
      rw [cleanup_key_eq]
      have hp := prunedAt_eq (rlKey cfg.endpoint token) now cfg.windowMs store
      have hlen : 1 ≤ (((store (rlKey cfg.endpoint token)).getD []).filter
          (fun t => now - t < cfg.windowMs)).length := by
        rw [hp] at hfull; omega
      have hne : (((store (rlKey cfg.endpoint token)).getD []).filter
          (fun t => now - t < cfg.windowMs)).isEmpty = false := by
        cases h : ((store (rlKey cfg.endpoint token)).getD []).filter
            (fun t => now - t < cfg.windowMs) with
        | nil => rw [h] at hlen; simp at hlen
        | cons a l => simp
      rw [hne]
      simp only [Bool.false_eq_true, if_false, hp]
    next hk => rfl
  · exfalso
    rw [checkRateLimit_open token cfg now store (by omega)] at hrej
    simp at hrej

/-- A concrete rejected call: max 2 requests, two fresh timestamps stored. -/
def c10Store : RLStore := fun k => if k = "chat:tok" then some [0, 1] else none

theorem checkRateLimit_reject_leaves_state_witness :
    (checkRateLimit "tok" ⟨"chat", 2, 60000⟩ 5 c10Store).1.allowed = false ∧
    (checkRateLimit "tok" ⟨"chat", 2, 60000⟩ 5 c10Store).2 =
      cleanupExpiredTimestamps "chat:tok" 5 60000 c10Store := by
  have h1 : (checkRateLimit "tok" ⟨"chat", 2, 60000⟩ 5 c10Store).1.allowed = false := by
    decide
  refine ⟨h1, ?_⟩
  have h2 := checkRateLimit_reject_leaves_state "tok" ⟨"chat", 2, 60000⟩ 5 c10Store
    (by decide) h1
  have hkey : rlKey "chat" "tok" = "chat:tok" := by decide
  rw [h2]
  rw [show (⟨"chat", 2, 60000⟩ : RateLimitConfig).endpoint = "chat" from rfl]
  rw [hkey]

/-- Claim C7: per-call contract of `checkRateLimit`.
(1) `cleanupExpiredTimestamps` keeps exactly the timestamps `ts` with
`now - ts < window` and removes the key exactly when none survive, leaving
every other key alone.  (2) Starting from a fresh window, `k ≤ maxRequests`
calls are all allowed and the `k`-th result carries
`remaining = maxRequests - k`.  (3) A rejected call reports
`retryAfter = ⌈(oldest + window - now) / 1000⌉` seconds. -/
theorem checkRateLimit_per_call_contract :
    (∀ (key : String) (now W : ℤ) (store : RLStore),
        prunedAt key now W store =
          ((store key).getD []).filter (fun t => now - t < W) ∧
        ((cleanupExpiredTimestamps key now W store) key = none ↔
          ((store key).getD []).filter (fun t => now - t < W) = []) ∧
        (∀ k2, k2 ≠ key → (cleanupExpiredTimestamps key now W store) k2 = store k2)) ∧
    (∀ (token : String) (cfg : RateLimitConfig) (times : List ℤ),
        times.length ≤ cfg.maxRequests →
        times.Pairwise (· ≤ ·) →
        (∀ t ∈ times, ∀ u ∈ times, t ≤ u → u - t < cfg.windowMs) →
        (rlCallTimes token cfg emptyStore times).1 =
          freshResults cfg.maxRequests cfg.windowMs 0 times) ∧
    (∀ (token : String) (cfg : RateLimitConfig) (now : ℤ) (store : RLStore),
        cfg.maxRequests ≤
          (prunedAt (rlKey cfg.endpoint token) now cfg.windowMs store).length →
        (checkRateLimit token cfg now store).1 =
          ⟨false, 0,
            (prunedAt (rlKey cfg.endpoint token) now cfg.windowMs store).headD 0 +
              cfg.windowMs,
            some ⌈(((prunedAt (rlKey cfg.endpoint token) now cfg.windowMs store).headD 0 +
              cfg.windowMs - now : ℤ) : ℚ) / 1000⌉⟩) := by
  refine ⟨?_, ?_, ?_⟩
  · intro key now W store
    refine ⟨prunedAt_eq key now W store, ?_, fun k2 hk2 => cleanup_other_key key now W store k2 hk2⟩
    rw [cleanup_key_eq]
    split
    next hemp => simpa using List.isEmpty_iff.mp hemp
    next hemp =>
      simp only [reduceCtorEq, false_iff]
      intro h
      exact hemp (List.isEmpty_iff.mpr h)
  · intro token cfg times hlen hpw hwin
    have h := rlCallTimes_fresh token cfg times [] emptyStore
      (Or.inr ⟨rfl, rfl⟩)
      (by simpa using hlen)
      (by intro t ht; simp at ht)
      hpw
      (by
        intro x hx u hu hxu
        rcases hx with hx' | hx'
        · simp at hx'
        · rcases hu with hu' | hu'
          · simp at hu'
          · exact hwin x hx' u hu' hxu)
    simpa using h
  · intro token cfg now store hfull
    rw [checkRateLimit_full token cfg now store hfull]
    simp [jsCeilDiv_eq_ceil]

theorem checkRateLimit_per_call_contract_witness :
    (rlCallTimes "t" RateLimits.chat emptyStore [0, 10]).1 =
      freshResults 20 60000 0 [0, 10] ∧
    (checkRateLimit "t" ⟨"chat", 1, 60000⟩ 400
        (fun k => if k = "chat:t" then some [0] else none)).1 =
      ⟨false, 0, 60000, some ⌈((59600 : ℤ) : ℚ) / 1000⌉⟩ := by
  constructor
  · exact checkRateLimit_per_call_contract.2.1 "t" RateLimits.chat [0, 10]
      (by decide) (by decide) (by decide)
  · have h := checkRateLimit_per_call_contract.2.2 "t" ⟨"chat", 1, 60000⟩ 400
      (fun k => if k = "chat:t" then some [0] else none) (by decide)
    rw [h]
    have hpr : prunedAt (rlKey (⟨"chat", 1, 60000⟩ : RateLimitConfig).endpoint "t") 400
        (⟨"chat", 1, 60000⟩ : RateLimitConfig).windowMs
        (fun k => if k = "chat:t" then some [0] else none) = [0] := by decide
    rw [hpr]
    norm_num

/-! ### Sliding-window guarantee (claim C2)

`rlTimesStep`/`rlTimesRun` view the limiter through a single key's timestamp
list; `rlRun` executes arbitrary interleaved `checkRateLimit` calls against
the shared store. -/

/-- One `checkRateLimit` call as seen by a single key: prune, then reject or
append, returning the allowed flag and the new timestamp list. -/
def rlTimesStep (m : ℕ) (W now : ℤ) (ts : List ℤ) : Bool × List ℤ :=
  let kept := ts.filter (fun t => now - t < W)
  if m ≤ kept.length then (false, kept) else (true, kept ++ [now])

/-- Iterated `rlTimesStep` over a list of call times. -/
def rlTimesRun (m : ℕ) (W : ℤ) : List ℤ → List ℤ → List (ℤ × Bool) × List ℤ
  | ts, [] => ([], ts)
  | ts, n :: ns =>
    let step := rlTimesStep m W n ts
    let rest := rlTimesRun m W step.2 ns
    ((n, step.1) :: rest.1, rest.2)

/-- The times of the calls that were answered `allowed = true`. -/
def allowedTimes (out : List (ℤ × Bool)) : List ℤ :=
  (out.filter (fun p => p.2)).map Prod.fst

/-- An arbitrary `checkRateLimit` call: a token, a config and a call time. -/
structure RLCall where
  token : String
  cfg : RateLimitConfig
  now : ℤ
deriving DecidableEq, Repr

/-- The store key a call updates. -/
def RLCall.key (c : RLCall) : String := rlKey c.cfg.endpoint c.token

/-- A sequence of `checkRateLimit` calls against the shared store. -/
def rlRun : RLStore → List RLCall → List (RLCall × RateLimitResult) × RLStore
  | store, [] => ([], store)
  | store, c :: cs =>
    let step := checkRateLimit c.token c.cfg c.now store
    let rest := rlRun step.2 cs
    ((c, step.1) :: rest.1, rest.2)

/-- The times at which a given key received `allowed = true`. -/
def allowedTimesFor (key : String) (out : List (RLCall × RateLimitResult)) : List ℤ :=
  (out.filter (fun p => decide (p.1.key = key) && p.2.allowed)).map (fun p => p.1.now)

/-- Whether a time falls in the half-open window `[a, a + W)`. -/
def inWin (a W t : ℤ) : Bool := decide (a ≤ t) && decide (t < a + W)

theorem allowedTimes_cons (p : ℤ × Bool) (l : List (ℤ × Bool)) :
    allowedTimes (p :: l) =
      if p.2 then p.1 :: allowedTimes l else allowedTimes l := by
  unfold allowedTimes
  rw [List.filter_cons]
  split
  next h => simp_all
  next h => simp_all

theorem allowedTimesFor_cons (key : String) (p : RLCall × RateLimitResult)
    (l : List (RLCall × RateLimitResult)) :
    allowedTimesFor key (p :: l) =
      if p.1.key = key ∧ p.2.allowed then p.1.now :: allowedTimesFor key l
      else allowedTimesFor key l := by
  unfold allowedTimesFor
  rw [List.filter_cons]
  by_cases h1 : p.1.key = key
  · by_cases h2 : p.2.allowed <;> simp [h1, h2]
  · simp [h1]

theorem checkRateLimit_step_eq (token : String) (cfg : RateLimitConfig) (now : ℤ)
    (store : RLStore) :
    (checkRateLimit token cfg now store).1.allowed =
      (rlTimesStep cfg.maxRequests cfg.windowMs now
        ((store (rlKey cfg.endpoint token)).getD [])).1 ∧
    ((checkRateLimit token cfg now store).2 (rlKey cfg.endpoint token)).getD [] =
      (rlTimesStep cfg.maxRequests cfg.windowMs now
        ((store (rlKey cfg.endpoint token)).getD [])).2 := by
  have hp := (prunedAt_eq (rlKey cfg.endpoint token) now cfg.windowMs store).symm
  simp only [rlTimesStep]
  rw [hp]
  by_cases hfull : cfg.maxRequests ≤
      (prunedAt (rlKey cfg.endpoint token) now cfg.windowMs store).length
  · rw [if_pos hfull, checkRateLimit_full token cfg now store hfull]
    exact ⟨rfl, by simp [setKey]⟩
  · rw [if_neg hfull, checkRateLimit_open token cfg now store (by omega)]
    exact ⟨rfl, by simp [setKey]⟩

theorem checkRateLimit_frame (token : String) (cfg : RateLimitConfig) (now : ℤ)
    (store : RLStore) (k : String) (hk : k ≠ rlKey cfg.endpoint token) :
    (checkRateLimit token cfg now store).2 k = store k := by
  by_cases hfull : cfg.maxRequests ≤
      (prunedAt (rlKey cfg.endpoint token) now cfg.windowMs store).length
  · rw [checkRateLimit_full token cfg now store hfull]
    simp only [setKey, if_neg hk]
    exact cleanup_other_key _ _ _ _ _ hk
  · rw [checkRateLimit_open token cfg now store (by omega)]
    simp only [setKey, if_neg hk]
    exact cleanup_other_key _ _ _ _ _ hk

theorem rlRun_allowedTimes (key : String) (m : ℕ) (W : ℤ) :
    ∀ (calls : List RLCall) (store : RLStore),
      (∀ c ∈ calls, c.key = key → c.cfg.maxRequests = m ∧ c.cfg.windowMs = W) →
      allowedTimesFor key (rlRun store calls).1 =
        allowedTimes (rlTimesRun m W ((store key).getD [])
          ((calls.filter (fun c => decide (c.key = key))).map RLCall.now)).1 := by
  intro calls
  induction calls with
  | nil => intro store _; rfl
  | cons c cs ih =>
    intro store hcfg
    simp only [rlRun, List.filter_cons]
    by_cases hck : c.key = key
    · obtain ⟨hm, hw⟩ := hcfg c (by simp) hck
      rw [if_pos (by simpa using hck)]
      simp only [List.map_cons, rlTimesRun]
      rw [allowedTimesFor_cons, allowedTimes_cons]
      have hstep := checkRateLimit_step_eq c.token c.cfg c.now store
      have hkey : rlKey c.cfg.endpoint c.token = key := hck
      rw [hkey, hm, hw] at hstep
      have hrest := ih (checkRateLimit c.token c.cfg c.now store).2
        (fun d hd hdk => hcfg d (List.mem_cons_of_mem _ hd) hdk)
      rw [hrest, hstep.2]
      by_cases hall : (checkRateLimit c.token c.cfg c.now store).1.allowed
      · rw [if_pos ⟨hck, hall⟩, if_pos (hstep.1 ▸ hall)]
      · rw [if_neg (fun hc => hall hc.2), if_neg (by rw [← hstep.1]; simpa using hall)]
    · rw [if_neg (by simpa using hck)]
      rw [allowedTimesFor_cons, if_neg (fun hc => hck hc.1)]
      have hfr : (checkRateLimit c.token c.cfg c.now store).2 key = store key :=
        checkRateLimit_frame c.token c.cfg c.now store key (fun h => hck h.symm)
      have hrest := ih (checkRateLimit c.token c.cfg c.now store).2
        (fun d hd hdk => hcfg d (List.mem_cons_of_mem _ hd) hdk)
      rw [hrest, hfr]

theorem rlTimesStep_full (m : ℕ) (W now : ℤ) (ts : List ℤ)
    (h : m ≤ (ts.filter (fun t => now - t < W)).length) :
    rlTimesStep m W now ts = (false, ts.filter (fun t => now - t < W)) := by
  unfold rlTimesStep
  rw [if_pos h]

theorem rlTimesStep_open (m : ℕ) (W now : ℤ) (ts : List ℤ)
    (h : (ts.filter (fun t => now - t < W)).length < m) :
    rlTimesStep m W now ts = (true, ts.filter (fun t => now - t < W) ++ [now]) := by
  unfold rlTimesStep
  rw [if_neg (by omega)]

theorem mem_allowedTimes_run (m : ℕ) (W : ℤ) :
    ∀ (ns ts : List ℤ) (t : ℤ), t ∈ allowedTimes (rlTimesRun m W ts ns).1 → t ∈ ns := by
  intro ns
  induction ns with
  | nil =>
    intro ts t h
    simp [rlTimesRun, allowedTimes] at h
  | cons n ns ih =>
    intro ts t h
    simp only [rlTimesRun] at h
    rw [allowedTimes_cons] at h
    split at h
    · rcases List.mem_cons.mp h with h' | h'
      · simp [h']
      · exact List.mem_cons_of_mem _ (ih _ t h')
    · exact List.mem_cons_of_mem _ (ih _ t h)

/-- Core sliding-window bound: along any nondecreasing sequence of call times,
the calls answered `allowed = true` inside a window `[a, a + W)` never exceed
`m`, provided the in-window part of the starting state is already counted. -/
theorem rlTimesRun_window_bound (m : ℕ) (W a : ℤ) :
    ∀ (ns ts : List ℤ),
      ns.Pairwise (· ≤ ·) →
      (∀ t ∈ ts, ∀ n ∈ ns, t ≤ n) →
      (ts.filter (inWin a W)).length ≤ m →
      ((allowedTimes (rlTimesRun m W ts ns).1).filter (inWin a W)).length +
        (ts.filter (inWin a W)).length ≤ m := by
  intro ns
  induction ns with
  | nil =>
    intro ts _ _ hpre
    simpa [rlTimesRun, allowedTimes] using hpre
  | cons n ns ih =>
    intro ts hpw hpt hpre
    obtain ⟨hnle, hpw'⟩ := List.pairwise_cons.mp hpw
    have hknownle : ∀ t ∈ ts, t ≤ n := fun t ht => hpt t ht n (by simp)
    have hkept_win_le :
        ((ts.filter (fun t => n - t < W)).filter (inWin a W)).length ≤
          (ts.filter (inWin a W)).length :=
      (List.Sublist.filter (inWin a W) (List.filter_sublist ts)).length_le
    have hpt2 : ∀ t ∈ ts.filter (fun t => n - t < W), ∀ u ∈ ns, t ≤ u :=
      fun t ht u hu => hpt t (List.mem_of_mem_filter ht) u (List.mem_cons_of_mem _ hu)
    rcases le_or_lt (a + W) n with haw | hlt
    · -- the window lies entirely before this and all later calls
      have hnil : (allowedTimes (rlTimesRun m W ts (n :: ns)).1).filter (inWin a W) = [] := by
        apply List.filter_eq_nil_iff.mpr
        intro x hx
        have hxmem : x ∈ n :: ns := mem_allowedTimes_run m W (n :: ns) ts x hx
        have hxge : n ≤ x := by
          rcases List.mem_cons.mp hxmem with h | h
          · omega
          · exact hnle x h
        simp only [inWin, Bool.and_eq_true, decide_eq_true_eq, not_and]
        intro _
        omega
      rw [hnil]
      simpa using hpre
    · simp only [rlTimesRun]
      rw [allowedTimes_cons]
      by_cases hna : n < a
      · -- the window lies entirely after every stored timestamp
        have hts0 : (ts.filter (inWin a W)).length = 0 := by
          rw [List.length_eq_zero]
          apply List.filter_eq_nil_iff.mpr
          intro x hx
          have := hknownle x hx
          simp only [inWin, Bool.and_eq_true, decide_eq_true_eq, not_and]
          intro h
          omega
        by_cases hfull : m ≤ (ts.filter (fun t => n - t < W)).length
        · rw [rlTimesStep_full m W n ts hfull]
          simp only [Bool.false_eq_true, if_false]
          have hih := ih (ts.filter (fun t => n - t < W)) hpw' hpt2 (by omega)
          omega
        · rw [rlTimesStep_open m W n ts (by omega)]
          simp only [if_true]
          have hkn1 : (((ts.filter (fun t => n - t < W)) ++ [n]).filter (inWin a W)).length ≤ m := by
            rw [List.filter_append]
            have : ([n].filter (inWin a W)).length = 0 := by
              simp [inWin]
              omega
            simp only [List.length_append, this]
            omega
          have hpt3 : ∀ t ∈ (ts.filter (fun t => n - t < W)) ++ [n], ∀ u ∈ ns, t ≤ u := by
            intro t ht u hu
            rcases List.mem_append.mp ht with h | h
            · exact hpt2 t h u hu
            · have : t = n := by simpa using h
              subst this
              exact hnle u hu
          have hih := ih ((ts.filter (fun t => n - t < W)) ++ [n]) hpw' hpt3 hkn1
          have hwn : inWin a W n = false := by
            simp [inWin]
            omega
          rw [List.filter_cons, hwn]
          simp only [Bool.false_eq_true, if_false]
          rw [List.filter_append] at hih
          have h0 : ([n].filter (inWin a W)).length = 0 := by
            simp [List.filter, hwn]
          simp only [List.length_append, h0] at hih
          omega
      · -- a ≤ n < a + W : the call time is inside the window
        have hwn : inWin a W n = true := by
          simp [inWin]
          omega
        have hwin_eq : ts.filter (inWin a W) =
            (ts.filter (fun t => n - t < W)).filter (inWin a W) := by
          rw [List.filter_filter]
          apply List.filter_congr
          intro x hx
          by_cases hxw : inWin a W x = true
          · have hxn : x ≤ n := hknownle x hx
            have hprune : n - x < W := by
              simp only [inWin, Bool.and_eq_true, decide_eq_true_eq] at hxw
              omega
            simp [hxw, hprune]
          · simp [Bool.eq_false_iff.mpr hxw]
        by_cases hfull : m ≤ (ts.filter (fun t => n - t < W)).length
        · rw [rlTimesStep_full m W n ts hfull]
          simp only [Bool.false_eq_true, if_false]
          have hih := ih (ts.filter (fun t => n - t < W)) hpw' hpt2 (by omega)
          rw [← hwin_eq] at hih
          omega
        · rw [rlTimesStep_open m W n ts (by omega)]
          simp only [if_true]
          have hkn1 : (((ts.filter (fun t => n - t < W)) ++ [n]).filter (inWin a W)).length ≤ m := by
            rw [List.filter_append]
            have hlen1 : ([n].filter (inWin a W)).length ≤ 1 := by
              simp [List.filter]
              split <;> simp
            have hkle : ((ts.filter (fun t => n - t < W)).filter (inWin a W)).length ≤
                (ts.filter (fun t => n - t < W)).length := List.length_filter_le _ _
            simp only [List.length_append]
            omega
          have hpt3 : ∀ t ∈ (ts.filter (fun t => n - t < W)) ++ [n], ∀ u ∈ ns, t ≤ u := by
            intro t ht u hu
            rcases List.mem_append.mp ht with h | h
            · exact hpt2 t h u hu
            · have : t = n := by simpa using h
              subst this
              exact hnle u hu
          have hih := ih ((ts.filter (fun t => n - t < W)) ++ [n]) hpw' hpt3 hkn1
          rw [List.filter_append] at hih
          have h1 : ([n].filter (inWin a W)).length = 1 := by
            simp [List.filter, hwn]
          simp only [List.length_append, h1] at hih
          rw [← hwin_eq] at hih
          rw [List.filter_cons, hwn]
          simp only [if_true, List.length_cons]
          omega

/-- Claim C2: for every `(endpoint, token)` key and every window of length
`W = 60000` ms, a run of arbitrarily many interleaved `checkRateLimit` calls
with nondecreasing clock readings answers `allowed = true` at most
`maxRequests` times for that key within the window — `20` for the chat
config and `60` for the retrieval config. -/
theorem rateLimit_window_bound
    (cfg : RateLimitConfig) (hcfg : cfg = RateLimits.chat ∨ cfg = RateLimits.retrieve)
    (calls : List RLCall) (key : String) (a : ℤ)
    (hmono : (calls.map RLCall.now).Pairwise (· ≤ ·))
    (hkeycfg : ∀ c ∈ calls, c.key = key → c.cfg = cfg) :
    ((allowedTimesFor key (rlRun emptyStore calls).1).filter
        (inWin a cfg.windowMs)).length ≤ cfg.maxRequests ∧
    RateLimits.chat.maxRequests = 20 ∧ RateLimits.retrieve.maxRequests = 60 ∧
    RateLimits.chat.windowMs = 60000 ∧ RateLimits.retrieve.windowMs = 60000 := by
  refine ⟨?_, rfl, rfl, rfl, rfl⟩
  rw [rlRun_allowedTimes key cfg.maxRequests cfg.windowMs calls emptyStore
    (fun c hc hk => by rw [hkeycfg c hc hk]; exact ⟨rfl, rfl⟩)]
  have hns : ((calls.filter (fun c => decide (c.key = key))).map RLCall.now).Pairwise
      (· ≤ ·) :=
    hmono.sublist (List.Sublist.map RLCall.now (List.filter_sublist calls))
  have h := rlTimesRun_window_bound cfg.maxRequests cfg.windowMs a
    ((calls.filter (fun c => decide (c.key = key))).map RLCall.now)
    ((emptyStore key).getD []) hns
    (by intro t ht; simp [emptyStore] at ht)
    (by simp [emptyStore])
  simpa [emptyStore] using h

theorem rateLimit_window_bound_witness :
    ((allowedTimesFor "chat:t"
        (rlRun emptyStore
          [⟨"t", RateLimits.chat, 0⟩, ⟨"t", RateLimits.chat, 1⟩]).1).filter
      (inWin 0 RateLimits.chat.windowMs)).length ≤ RateLimits.chat.maxRequests ∧
    RateLimits.chat.maxRequests = 20 ∧ RateLimits.retrieve.maxRequests = 60 ∧
    RateLimits.chat.windowMs = 60000 ∧ RateLimits.retrieve.windowMs = 60000 :=
  rateLimit_window_bound RateLimits.chat (Or.inl rfl)
    [⟨"t", RateLimits.chat, 0⟩, ⟨"t", RateLimits.chat, 1⟩] "chat:t" 0
    (by decide) (by decide)

/-! ## Bearer-token authentication (`lib/auth/bearer.ts`)

Headers are `Option String` (`none` = absent header).  JavaScript truthiness of
a nullable string is `truthy`.  `Buffer.from` is modelled by `strBytes`; its
equality and emptiness agree with the UTF-8 byte sequence (UTF-8 encoding is
injective), which is all the net classification result depends on. -/

/-- The reasons in `AuthResult.reason`. -/
inductive AuthReason
  | token_missing
  | token_invalid
  | token_malformed
deriving DecidableEq, Repr

/-- Shape of `AuthResult` (bearer.ts). -/
structure AuthResult where
  authorized : Bool
  reason : Option AuthReason
deriving DecidableEq, Repr

/-- JavaScript truthiness of a `string | null` value. -/
def truthy : Option String → Bool
  | none => false
  | some s => !(s == "")

/-- JavaScript `s.startsWith(p)`, evaluated over the character sequence. -/
def jsStartsWith (s p : String) : Bool := decide (s.toList.take p.toList.length = p.toList)

/-- The test `authHeader?.startsWith("Bearer ")` (undefined is falsy). -/
def authHasBearer : Option String → Bool
  | some a => jsStartsWith a "Bearer "
  | none => false

/-- The expression `accessTokenHeader || null`: an empty header value collapses to `null`. -/
def orNull : Option String → Option String
  | some x => if x == "" then none else some x
  | none => none

/-- Model of `extractToken` (bearer.ts): the remainder after `Bearer `, else the
`X-Access-Token` value (empty collapsed to null). -/
def extractToken (auth xat : Option String) : Option String :=
  match auth with
  | some a => if jsStartsWith a "Bearer " then some (a.drop 7) else orNull xat
  | none => orNull xat

/-- Accumulated byte difference, as in `CRYPTO_memcmp`: OR together the XOR of
every byte pair; zero exactly when all pairs agree. -/
def xorAccum (pairs : List (ℕ × ℕ)) : ℕ :=
  pairs.foldl (fun acc p => acc ||| (p.1 ^^^ p.2)) 0

/-- Model of `crypto.timingSafeEqual`: throws (`Except.error`) when the byte lengths
differ, otherwise compares all bytes by accumulating differences. -/
def timingSafeEqual (a b : List ℕ) : Except Unit Bool :=
  if a.length = b.length then Except.ok (xorAccum (a.zip b) == 0) else Except.error ()

/-- Number of byte positions `timingSafeEqual` examines: the full common length
when the lengths agree; none at all when they differ, because the length check
throws before any byte is read (node documentation; see also the ADR note
"timingSafeEqual throws if lengths don't match"). -/
def timingSafeEqualComparedBytes (a b : List ℕ) : ℕ :=
  if a.length = b.length then a.length else 0

/-- The bytes `Buffer.from(s)`, viewed as the sequence of Unicode scalar values. -/
def strBytes (s : String) : List ℕ := s.toList.map Char.toNat

/-- The `try { timingSafeEqual … } catch { token_invalid }` block of
`validateBearerToken`: the length-mismatch throw is caught and mapped to
`token_invalid`. -/
def compareToken (tok secret : String) : AuthResult :=
  match timingSafeEqual (strBytes tok) (strBytes secret) with
  | Except.ok true => ⟨true, none⟩
  | Except.ok false => ⟨false, some AuthReason.token_invalid⟩
  | Except.error _ => ⟨false, some AuthReason.token_invalid⟩

/-- Model of `validateBearerToken` (bearer.ts): malformed / missing / constant-time
comparison with the configured secret. -/
def validateBearerToken (auth xat : Option String) (secret : String) : AuthResult :=
  let provided := extractToken auth xat
  if truthy auth && !(authHasBearer auth) && !(truthy provided) then
    ⟨false, some AuthReason.token_malformed⟩
  else if !(truthy provided) then
    ⟨false, some AuthReason.token_missing⟩
  else
    match provided with
    | some tok => compareToken tok secret
    | none => ⟨false, some AuthReason.token_missing⟩

/-- The token search of spec section 4.2, reading a token as a non-empty
string: the `Bearer ` remainder when the prefix is present, otherwise the
`X-Access-Token` value; an empty candidate is no token. -/
def specFindToken (auth xat : Option String) : Option String :=
  match auth with
  | some a =>
    if jsStartsWith a "Bearer " then
      (if a.drop 7 == "" then none else some (a.drop 7))
    else orNull xat
  | none => orNull xat

/-- The classification of spec section 4.2 / claim C3, transcribed from its
wording: malformed when `Authorization` exists, is non-empty, lacks the
`Bearer ` prefix and `X-Access-Token` supplies no token; missing when no token
is found; invalid when the found token differs from the secret; authorized
otherwise. -/
def specAuthClassify (auth xat : Option String) (secret : String) : AuthResult :=
  if truthy auth && !(authHasBearer auth) && (orNull xat).isNone then
    ⟨false, some AuthReason.token_malformed⟩
  else
    match specFindToken auth xat with
    | none => ⟨false, some AuthReason.token_missing⟩
    | some tok =>
      if tok == secret then ⟨true, none⟩ else ⟨false, some AuthReason.token_invalid⟩

theorem or_eq_zero_of (a b : ℕ) (h : a ||| b = 0) : a = 0 ∧ b = 0 := by
  constructor
  · by_contra hne
    obtain ⟨i, hi⟩ := Nat.exists_most_significant_bit hne
    have h2 := congrArg (fun n => n.testBit i) h
    simp [Nat.testBit_or, hi.1] at h2
  · by_contra hne
    obtain ⟨i, hi⟩ := Nat.exists_most_significant_bit hne
    have h2 := congrArg (fun n => n.testBit i) h
    simp [Nat.testBit_or, hi.1] at h2

theorem xorAccum_eq_zero :
    ∀ (l : List (ℕ × ℕ)) (acc : ℕ),
      l.foldl (fun acc p => acc ||| (p.1 ^^^ p.2)) acc = 0 ↔
        acc = 0 ∧ ∀ p ∈ l, p.1 = p.2 := by
  intro l
  induction l with
  | nil => intro acc; simp
  | cons q l ih =>
    intro acc
    simp only [List.foldl_cons]
    rw [ih]
    constructor
    · rintro ⟨h0, hall⟩
      obtain ⟨ha, hx⟩ := or_eq_zero_of _ _ h0
      refine ⟨ha, ?_⟩
      intro p hp
      rcases List.mem_cons.mp hp with h | h
      · subst h
        exact Nat.xor_eq_zero.mp hx
      · exact hall p h
    · rintro ⟨ha, hall⟩
      subst ha
      have hq : q.1 = q.2 := hall q (by simp)
      refine ⟨?_, fun p hp => hall p (List.mem_cons_of_mem _ hp)⟩
      simp [Nat.xor_eq_zero.mpr hq]

theorem zip_all_eq (a : List ℕ) :
    ∀ (b : List ℕ), a.length = b.length → (∀ p ∈ a.zip b, p.1 = p.2) → a = b := by
  induction a with
  | nil =>
    intro b hlen _
    cases b with
    | nil => rfl
    | cons x xs => simp at hlen
  | cons x xs ih =>
    intro b hlen hall
    cases b with
    | nil => simp at hlen
    | cons y ys =>
      have hx : x = y := hall (x, y) (by simp)
      have hrest : xs = ys := by
        apply ih ys (by simpa using hlen)
        intro p hp
        exact hall p (by simp [List.zip_cons_cons, hp])
      rw [hx, hrest]

theorem mem_zip_self (a : List ℕ) : ∀ p ∈ a.zip a, p.1 = p.2 := by
  induction a with
  | nil =>
    intro p hp
    simp at hp
  | cons x xs ih =>
    intro p hp
    rw [List.zip_cons_cons] at hp
    rcases List.mem_cons.mp hp with h | h
    · subst h; rfl
    · exact ih p h

theorem timingSafeEqual_ok_true (a b : List ℕ) :
    timingSafeEqual a b = Except.ok true ↔ a = b := by
  unfold timingSafeEqual
  constructor
  · intro h
    split at h
    next hlen =>
      simp only [Except.ok.injEq, beq_iff_eq] at h
      have := (xorAccum_eq_zero (a.zip b) 0).mp h
      exact zip_all_eq a b hlen this.2
    next hlen => simp at h
  · intro h
    subst h
    rw [if_pos rfl]
    have h0 : xorAccum (a.zip a) = 0 :=
      (xorAccum_eq_zero (a.zip a) 0).mpr ⟨rfl, mem_zip_self a⟩
    simp [h0]

theorem strBytes_inj {s t : String} (h : strBytes s = strBytes t) : s = t := by
  unfold strBytes at h
  have hlist : s.toList = t.toList := by
    apply List.map_injective_iff.mpr ?_ h
    intro c d hcd
    have := congrArg Char.ofNat hcd
    rwa [Char.ofNat_toNat, Char.ofNat_toNat] at this
  exact String.ext hlist

theorem compareToken_eq (tok secret : String) :
    compareToken tok secret =
      if tok == secret then ⟨true, none⟩ else ⟨false, some AuthReason.token_invalid⟩ := by
  unfold compareToken
  by_cases h : tok = secret
  · subst h
    rw [if_pos (by simp)]
    rw [(timingSafeEqual_ok_true (strBytes tok) (strBytes tok)).mpr rfl]
  · rw [if_neg (by simpa using h)]
    cases hts : timingSafeEqual (strBytes tok) (strBytes secret) with
    | ok b =>
      cases b with
      | true =>
        exact absurd (strBytes_inj ((timingSafeEqual_ok_true _ _).mp hts)) h
      | false => rfl
    | error e => rfl

/-- Claim C3: `validateBearerToken` classifies every request exactly as the
spec's procedure: malformed (Authorization present, non-empty, without the
`Bearer ` prefix, and no X-Access-Token token), else missing when no token is
found, else invalid when the token differs from the configured secret
(length mismatches included), else authorized. -/
theorem validateBearerToken_eq_spec (auth xat : Option String) (secret : String) :
    validateBearerToken auth xat secret = specAuthClassify auth xat secret := by
  cases auth with
  | none =>
    cases xat with
    | none =>
      simp [validateBearerToken, specAuthClassify, extractToken, specFindToken,
        orNull, truthy, authHasBearer]
    | some x =>
      by_cases hx : x == ""
      · simp [validateBearerToken, specAuthClassify, extractToken, specFindToken,
          orNull, truthy, authHasBearer, hx]
      · simp [validateBearerToken, specAuthClassify, extractToken, specFindToken,
          orNull, truthy, authHasBearer, hx, compareToken_eq]
  | some a =>
    by_cases hb : jsStartsWith a "Bearer "
    · by_cases hr : a.drop 7 == ""
      · simp [validateBearerToken, specAuthClassify, extractToken, specFindToken,
          orNull, truthy, authHasBearer, hb, hr]
      · simp [validateBearerToken, specAuthClassify, extractToken, specFindToken,
          orNull, truthy, authHasBearer, hb, hr, compareToken_eq]
    · by_cases ha : a == ""
      · cases xat with
        | none =>
          simp [validateBearerToken, specAuthClassify, extractToken, specFindToken,
            orNull, truthy, authHasBearer, hb, ha]
        | some x =>
          by_cases hx : x == ""
          · simp [validateBearerToken, specAuthClassify, extractToken, specFindToken,
              orNull, truthy, authHasBearer, hb, ha, hx]
          · simp [validateBearerToken, specAuthClassify, extractToken, specFindToken,
              orNull, truthy, authHasBearer, hb, ha, hx, compareToken_eq]
      · cases xat with
        | none =>
          simp [validateBearerToken, specAuthClassify, extractToken, specFindToken,
            orNull, truthy, authHasBearer, hb, ha]
        | some x =>
          by_cases hx : x == ""
          · simp [validateBearerToken, specAuthClassify, extractToken, specFindToken,
              orNull, truthy, authHasBearer, hb, ha, hx]
          · simp [validateBearerToken, specAuthClassify, extractToken, specFindToken,
              orNull, truthy, authHasBearer, hb, ha, hx, compareToken_eq]

/-- Counterexample to claim C6: on a byte-length mismatch (a 1-byte presented
token against a 32-byte secret) the comparison throws before examining any
byte — it neither runs over `max(len(a), len(b))` bytes nor returns `false`
after completing a loop. -/
theorem timingSafeEqual_not_max_length :
    timingSafeEqual (strBytes "x") (strBytes "0123456789abcdef0123456789abcdef") =
      Except.error () ∧
    timingSafeEqual (strBytes "x") (strBytes "0123456789abcdef0123456789abcdef") ≠
      Except.ok false ∧
    timingSafeEqualComparedBytes (strBytes "x")
      (strBytes "0123456789abcdef0123456789abcdef") = 0 ∧
    max (strBytes "x").length (strBytes "0123456789abcdef0123456789abcdef").length = 32 := by
  have h0 : timingSafeEqual (strBytes "x")
      (strBytes "0123456789abcdef0123456789abcdef") = Except.error () := by
    unfold timingSafeEqual
    rw [if_neg (by decide)]
  refine ⟨h0, ?_, by decide, by decide⟩
  rw [h0]
  intro hc
  exact Except.noConfusion hc

/-- Claim C6 amended: the token comparison is node's `timingSafeEqual`: when
the operands have equal byte length it examines the full common length,
accumulating differences with no early exit, and decides equality; on a length
mismatch it throws before examining any byte, and `validateBearerToken`
catches the throw and returns `token_invalid`. -/
theorem timingSafeEqual_contract :
    (∀ a b : List ℕ, a.length = b.length →
        timingSafeEqualComparedBytes a b = a.length ∧
        timingSafeEqual a b = Except.ok (decide (a = b))) ∧
    (∀ a b : List ℕ, a.length ≠ b.length →
        timingSafeEqual a b = Except.error () ∧
        timingSafeEqualComparedBytes a b = 0) ∧
    (∀ (auth xat : Option String) (secret tok : String),
        extractToken auth xat = some tok → tok ≠ "" →
        (strBytes tok).length ≠ (strBytes secret).length →
        validateBearerToken auth xat secret =
          ⟨false, some AuthReason.token_invalid⟩) := by
  refine ⟨?_, ?_, ?_⟩
  · intro a b hlen
    refine ⟨by unfold timingSafeEqualComparedBytes; rw [if_pos hlen], ?_⟩
    by_cases heq : a = b
    · subst heq
      rw [(timingSafeEqual_ok_true a a).mpr rfl]
      simp
    · unfold timingSafeEqual
      rw [if_pos hlen]
      have hx : xorAccum (a.zip b) ≠ 0 := by
        intro h0
        exact heq (zip_all_eq a b hlen ((xorAccum_eq_zero (a.zip b) 0).mp h0).2)
      simp [hx, heq]
  · intro a b hlen
    constructor
    · unfold timingSafeEqual
      rw [if_neg hlen]
    · unfold timingSafeEqualComparedBytes
      rw [if_neg hlen]
  · intro auth xat secret tok hext hne hlen
    have htse : timingSafeEqual (strBytes tok) (strBytes secret) = Except.error () := by
      unfold timingSafeEqual
      rw [if_neg hlen]
    have htr : truthy (some tok) = true := by
      simp [truthy, hne]
    simp only [validateBearerToken, hext, htr, Bool.not_true, Bool.and_false,
      Bool.false_eq_true, if_false, compareToken, htse]

theorem timingSafeEqual_contract_witness :
    (timingSafeEqualComparedBytes [1, 2] [3, 4] = 2 ∧
      timingSafeEqual [1, 2] [3, 4] = Except.ok (decide ([1, 2] = ([3, 4] : List ℕ)))) ∧
    (timingSafeEqual [1] [2, 3] = Except.error () ∧
      timingSafeEqualComparedBytes [1] [2, 3] = 0) ∧
    validateBearerToken (some "Bearer abc") none "xy" =
      ⟨false, some AuthReason.token_invalid⟩ :=
  ⟨timingSafeEqual_contract.1 [1, 2] [3, 4] (by decide),
   timingSafeEqual_contract.2.1 [1] [2, 3] (by decide),
   timingSafeEqual_contract.2.2 (some "Bearer abc") none "xy" "abc"
     (by decide) (by decide) (by decide)⟩

/-! ## Retrieval core (`lib/services/retrieval.ts`)

The pgvector query is modelled as a function of the joined rows it ranks: each
`StoreRow` is a chunk joined with its document, carrying the cosine distance
the store computes for the current query.  `storeQuery` performs the SQL
part (`WHERE embedding IS NOT NULL [AND document_id = …] ORDER BY similarity
DESC LIMIT topK`); `semanticSearch` then applies the core's similarity filter
and shapes the result, exactly as the TypeScript does. -/

/-- A row of the store's answer: chunk and document columns plus the cosine
distance for the current query embedding. -/
structure StoreRow where
  id : String
  documentId : String
  chunkIndex : ℕ
  content : String
  sectionTitle : Option String
  docTitle : Option String
  sourceFile : Option String
  hasEmbedding : Bool
  distance : ℚ
deriving DecidableEq, Repr

/-- The `chunk` part of a `RetrievalResult`. -/
structure ResultChunk where
  id : String
  documentId : String
  chunkIndex : ℕ
  content : String
  sectionTitle : Option String
deriving DecidableEq, Repr

/-- The `document` part of a `RetrievalResult`. -/
structure ResultDocument where
  id : String
  title : Option String
  sourceFile : Option String
deriving DecidableEq, Repr

/-- Shape of `RetrievalResult` (retrieval.ts). -/
structure RetrievalResult where
  chunk : ResultChunk
  document : ResultDocument
  similarity : ℚ
deriving DecidableEq, Repr

/-- The conversion `similarity = 1 - distance` (retrieval.ts line 44); no clamping occurs. -/
def rowSimilarity (r : StoreRow) : ℚ := 1 - r.distance

/-- The descending-similarity order used by `ORDER BY … DESC`. -/
def simGE (x y : StoreRow) : Prop := rowSimilarity y ≤ rowSimilarity x

instance : DecidableRel simGE := fun x y => inferInstanceAs (Decidable (_ ≤ _))

instance : IsTotal StoreRow simGE :=
  ⟨fun x y => le_total (rowSimilarity y) (rowSimilarity x)⟩

instance : IsTrans StoreRow simGE :=
  ⟨fun _ _ _ h1 h2 => le_trans h2 h1⟩

/-- The `WHERE` clause: embedding present, and the optional documentId filter. -/
def rowMatches (docFilter : Option String) (r : StoreRow) : Bool :=
  r.hasEmbedding &&
    (match docFilter with
     | some d => decide (r.documentId = d)
     | none => true)

/-- The SQL query of `semanticSearch`: filter, order by similarity descending
(ties resolved by the store in a stable, unspecified way — any stable sort),
limit to `topK`. -/
def storeQuery (rows : List StoreRow) (topK : ℕ) (docFilter : Option String) :
    List StoreRow :=
  (List.insertionSort simGE (rows.filter (rowMatches docFilter))).take topK

/-- The result-shaping `.map` of `semanticSearch` (the document id equals the
chunk's `documentId` through the inner join condition). -/
def toRetrievalResult (r : StoreRow) : RetrievalResult :=
  ⟨⟨r.id, r.documentId, r.chunkIndex, r.content, r.sectionTitle⟩,
   ⟨r.documentId, r.docTitle, r.sourceFile⟩,
   rowSimilarity r⟩

/-- Model of `semanticSearch` (retrieval.ts): the store's ranked rows, filtered by
`similarity >= minSimilarity`, mapped to the result shape. -/
def semanticSearch (rows : List StoreRow) (topK : ℕ) (minSimilarity : ℚ)
    (docFilter : Option String) : List RetrievalResult :=
  ((storeQuery rows topK docFilter).filter
      (fun r => minSimilarity ≤ rowSimilarity r)).map toRetrievalResult

/-- Claim C1: every retrieval response has at most `topK` results, every
result's similarity is at least the requested `minSimilarity`, and the
similarities are non-increasing (the store's descending order is preserved;
the core does not reorder). -/
theorem semanticSearch_response_shape (rows : List StoreRow) (topK : ℕ)
    (minSimilarity : ℚ) (docFilter : Option String) :
    (semanticSearch rows topK minSimilarity docFilter).length ≤ topK ∧
    (∀ x ∈ semanticSearch rows topK minSimilarity docFilter,
      minSimilarity ≤ x.similarity) ∧
    List.Pairwise (fun x y : RetrievalResult => y.similarity ≤ x.similarity)
      (semanticSearch rows topK minSimilarity docFilter) := by
  refine ⟨?_, ?_, ?_⟩
  · unfold semanticSearch
    rw [List.length_map]
    calc ((storeQuery rows topK docFilter).filter
            (fun r => minSimilarity ≤ rowSimilarity r)).length
        ≤ (storeQuery rows topK docFilter).length :=
          List.length_filter_le _ _
      _ ≤ topK := List.length_take_le _ _
  · intro x hx
    unfold semanticSearch at hx
    obtain ⟨r, hr, hxr⟩ := List.mem_map.mp hx
    have := List.of_mem_filter hr
    rw [← hxr]
    simpa [toRetrievalResult] using this
  · unfold semanticSearch
    apply List.pairwise_map.mpr
    have hsorted : List.Pairwise simGE
        (List.insertionSort simGE (rows.filter (rowMatches docFilter))) :=
      List.sorted_insertionSort simGE (rows.filter (rowMatches docFilter))
    have htake : List.Pairwise simGE (storeQuery rows topK docFilter) :=
      List.Pairwise.sublist (List.take_sublist _ _) hsorted
    exact List.Pairwise.filter _ htake

/-- A row whose distance violates the store's `[0, 1]` contract. -/
def outOfRangeRow : StoreRow :=
  ⟨"c1", "d1", 0, "text", none, none, none, true, -(1 / 2)⟩

/-- Counterexample to claim C4: `semanticSearch` does not clamp
`1 - distance`; a store distance of `-1/2` is exposed as similarity `3/2`,
outside `[0, 1]`. -/
theorem semanticSearch_no_clamp :
    outOfRangeRow.distance < 0 ∧
    (semanticSearch [outOfRangeRow] 5 (1 / 2) none).map RetrievalResult.similarity =
      [3 / 2] ∧
    ¬((3 / 2 : ℚ) ≤ 1) := by
  refine ⟨by norm_num [outOfRangeRow], ?_, by norm_num⟩
  norm_num [semanticSearch, storeQuery, rowMatches, outOfRangeRow, List.insertionSort,
    List.orderedInsert, toRetrievalResult, rowSimilarity]

/-- Claim C4 amended: retrieval computes `similarity = 1 - distance` with no
clamping, so exposed similarities lie in `[0, 1]` exactly when the store's
distances do; each result's similarity is `1 - distance` of a store row. -/
theorem semanticSearch_similarity_range (rows : List StoreRow) (topK : ℕ)
    (minSimilarity : ℚ) (docFilter : Option String)
    (hrange : ∀ r ∈ rows, 0 ≤ r.distance ∧ r.distance ≤ 1) :
    ∀ x ∈ semanticSearch rows topK minSimilarity docFilter,
      0 ≤ x.similarity ∧ x.similarity ≤ 1 := by
  intro x hx
  unfold semanticSearch at hx
  obtain ⟨r, hr, hxr⟩ := List.mem_map.mp hx
  have hrmem : r ∈ rows := by
    have h1 : r ∈ storeQuery rows topK docFilter := List.mem_of_mem_filter hr
    have h2 : r ∈ List.insertionSort simGE (rows.filter (rowMatches docFilter)) :=
      (List.take_sublist _ _).mem h1
    have h3 : r ∈ rows.filter (rowMatches docFilter) :=
      (List.perm_insertionSort simGE _).mem_iff.mp h2
    exact List.mem_of_mem_filter h3
  obtain ⟨h0, h1⟩ := hrange r hrmem
  rw [← hxr]
  unfold toRetrievalResult rowSimilarity
  constructor
  · simp only []
    linarith
  · simp only []
    linarith

/-- A row with an in-range distance, for the witness below. -/
def inRangeRow : StoreRow :=
  ⟨"c2", "d2", 0, "text", none, none, none, true, 1 / 4⟩

theorem semanticSearch_similarity_range_witness :
    toRetrievalResult inRangeRow ∈ semanticSearch [inRangeRow] 5 0 none ∧
    0 ≤ (toRetrievalResult inRangeRow).similarity ∧
    (toRetrievalResult inRangeRow).similarity ≤ 1 := by
  have hlist : semanticSearch [inRangeRow] 5 0 none = [toRetrievalResult inRangeRow] := by
    norm_num [semanticSearch, storeQuery, rowMatches, inRangeRow, List.insertionSort,
      List.orderedInsert, toRetrievalResult, rowSimilarity]
  have hmem : toRetrievalResult inRangeRow ∈ semanticSearch [inRangeRow] 5 0 none := by
    rw [hlist]
    exact List.mem_singleton.mpr rfl
  have h := semanticSearch_similarity_range [inRangeRow] 5 0 none
    (by intro r hr; rcases List.mem_singleton.mp hr with rfl; norm_num [inRangeRow])
    (toRetrievalResult inRangeRow) hmem
  exact ⟨hmem, h.1, h.2⟩

/-! ## Chat-internal retrieval (`lib/services/chat.ts`) -/

/-- The two client-visible message roles (system is rejected by the schema). -/
inductive ChatRole
  | user
  | assistant
deriving DecidableEq, Repr

/-- Shape of `ChatMessage` (chat.ts). -/
structure ChatMessage where
  role : ChatRole
  content : String
deriving DecidableEq, Repr

/-- Shape of `RetrievalOptions` (retrieval.ts): the arguments of `semanticSearch`. -/
structure RetrievalOptions where
  query : String
  topK : ℕ
  minSimilarity : ℚ
  documentFilter : Option String
deriving DecidableEq, Repr

/-- The options `retrieveContext` (chat.ts) passes to `semanticSearch`: it
reverses the messages, finds the latest `user` message, and searches its
content with `topK = 5`, `minSimilarity = 0.3` and no filter; `none` models
the early return `[]` when no user message exists (search is not invoked). -/
def retrieveContextOptions (messages : List ChatMessage) : Option RetrievalOptions :=
  match messages.reverse.find? (fun m => decide (m.role = ChatRole.user)) with
  | none => none
  | some m => some ⟨m.content, 5, 3 / 10, none⟩

/-- Claim C9: when the message list ends with a user message, chat-internal
retrieval queries exactly that last message's content — earlier messages never
influence retrieval — with `topK = 5` and `minSimilarity = 0.3`. -/
theorem retrieveContextOptions_last_user (messages : List ChatMessage)
    (last : ChatMessage) (hlast : messages.getLast? = some last)
    (hrole : last.role = ChatRole.user) :
    retrieveContextOptions messages = some ⟨last.content, 5, 3 / 10, none⟩ := by
  unfold retrieveContextOptions
  have hrev : messages.reverse.head? = some last := by
    rw [List.head?_reverse]
    exact hlast
  cases hrevl : messages.reverse with
  | nil => rw [hrevl] at hrev; simp at hrev
  | cons m rest =>
    rw [hrevl] at hrev
    simp only [List.head?_cons, Option.some.injEq] at hrev
    subst hrev
    rw [List.find?_cons_of_pos _ (by simp [hrole])]

theorem retrieveContextOptions_last_user_witness :
    retrieveContextOptions
        [⟨ChatRole.assistant, "hi"⟩, ⟨ChatRole.user, "vacation days?"⟩] =
      some ⟨"vacation days?", 5, 3 / 10, none⟩ :=
  retrieveContextOptions_last_user
    [⟨ChatRole.assistant, "hi"⟩, ⟨ChatRole.user, "vacation days?"⟩]
    ⟨ChatRole.user, "vacation days?"⟩ rfl rfl

/-! ## Payload size (`lib/api/errors.ts`, used by both POST route handlers) -/

/-- Decimal value of a digit run. -/
def digitsVal (ds : List Char) : ℕ :=
  ds.foldl (fun n c => 10 * n + (c.toNat - Char.toNat (Char.ofNat 48))) 0

/-- The leading decimal-digit run read by `Number.parseInt`; `none` when the
input does not start with a digit. -/
def leadingIntDigits (cs : List Char) : Option ℕ :=
  if (cs.takeWhile Char.isDigit).isEmpty then none
  else some (digitsVal (cs.takeWhile Char.isDigit))

/-- Model of `Number.parseInt(s, 10)`: skip leading whitespace, optional sign, then the
leading run of decimal digits; `none` models `NaN`. -/
def jsParseInt (s : String) : Option ℤ :=
  match s.toList.dropWhile Char.isWhitespace with
  | '-' :: rest => (leadingIntDigits rest).map (fun n => -(n : ℤ))
  | '+' :: rest => (leadingIntDigits rest).map (fun n => (n : ℤ))
  | cs => (leadingIntDigits cs).map (fun n => (n : ℤ))

/-- Model of `checkPayloadSize` (errors.ts): consults only the declared Content-Length.
A missing header — and an empty value, both falsy — passes the check, with the
source comment "If no Content-Length header, let request.json() fail
naturally". -/
def checkPayloadSize (contentLength : Option String) (maxSize : ℤ) : Bool :=
  match contentLength with
  | none => true
  | some cl =>
    if cl == "" then true
    else
      match jsParseInt cl with
      | none => false
      | some n => decide (n ≤ maxSize)

/-- The code/status pair of an `ErrorResponses` entry. -/
structure ApiErrorShape where
  code : String
  status : ℕ
deriving DecidableEq, Repr

/-- The `ErrorResponses.payloadTooLarge` constant. -/
def payloadTooLarge : ApiErrorShape := ⟨"payload_too_large", 413⟩

/-- Whether the POST route handlers reject a request body for size, as a
function of the declared header and the actual body size: the routes call
`checkPayloadSize(request)` (bound 51200) and then parse the body with
`request.json()`, which imposes no size bound — the actual body size is never
consulted. -/
def routeRejectsForSize (contentLength : Option String) (bodySize : ℕ) : Bool :=
  !(checkPayloadSize contentLength 51200)

/-- Counterexample to claim C5: with the Content-Length header absent, a body
of 100000 bytes — well over the 51200-byte bound — is not rejected: the
decoder enforces no bound while reading. -/
theorem payload_no_bound_without_header :
    routeRejectsForSize none 100000 = false ∧ 51200 < 100000 := by
  exact ⟨rfl, by norm_num⟩

/-- Claim C5 amended: a declared `Content-Length` above 51200 bytes is
rejected (`payload_too_large`, HTTP 413); when the header is absent the size
check always passes, whatever the actual body size — no bound is enforced
while reading. -/
theorem payload_size_contract :
    (∀ (s : String) (n : ℤ) (bodySize : ℕ),
        jsParseInt s = some n → 51200 < n →
        routeRejectsForSize (some s) bodySize = true) ∧
    (∀ bodySize : ℕ, routeRejectsForSize none bodySize = false) ∧
    payloadTooLarge.status = 413 ∧ payloadTooLarge.code = "payload_too_large" := by
  refine ⟨?_, fun _ => rfl, rfl, rfl⟩
  intro s n bodySize hparse hbig
  have hcps : checkPayloadSize (some s) 51200 = false := by
    by_cases hcl : s = ""
    · exfalso
      subst hcl
      rw [show jsParseInt "" = none from rfl] at hparse
      exact Option.noConfusion hparse
    · simp only [checkPayloadSize]
      rw [if_neg (by simpa using hcl), hparse]
      simp only [decide_eq_false_iff_not, not_le]
      omega
  unfold routeRejectsForSize
  rw [hcps]
  rfl

theorem payload_size_contract_witness :
    routeRejectsForSize (some "60000") 0 = true ∧ jsParseInt "60000" = some 60000 := by
  have hp : jsParseInt "60000" = some 60000 := by decide
  exact ⟨payload_size_contract.1 "60000" 60000 0 hp (by norm_num), hp⟩

/-! ## Metrics (`lib/api/metrics.ts`) -/

/-- The latency summary returned inside `getMetrics`. -/
structure PercentileSummary where
  p50 : ℚ
  p95 : ℚ
  p99 : ℚ
  avg : ℚ
deriving DecidableEq, Repr

/-- The single ascending sorted copy `[...arr].sort((a, b) => a - b)`. -/
def sortedLatencies (arr : List ℚ) : List ℚ :=
  List.insertionSort (fun x y : ℚ => x ≤ y) arr

/-- Model of `getPercentile` inside `calculatePercentiles`:
`sorted[Math.max(0, Math.ceil((p / 100) * n) - 1)]`. -/
def getPercentile (sorted : List ℚ) (p : ℕ) : ℚ :=
  sorted.getD (max 0 (⌈((p : ℚ) * sorted.length) / 100⌉ - 1)).toNat 0

/-- Model of `calculatePercentiles` (metrics.ts): zeros for an empty array, else the
three percentiles off one sorted copy, plus the mean. -/
def calculatePercentiles (arr : List ℚ) : PercentileSummary :=
  if arr.isEmpty then ⟨0, 0, 0, 0⟩
  else
    ⟨getPercentile (sortedLatencies arr) 50,
     getPercentile (sortedLatencies arr) 95,
     getPercentile (sortedLatencies arr) 99,
     arr.sum / arr.length⟩

/-- The `error_rate` computation in `getMetrics`: `errors / count` when `count > 0`, else `0`
(the guard that keeps it from being `NaN`). -/
def errorRate (count errors : ℕ) : ℚ :=
  if 0 < count then (errors : ℚ) / count else 0

/-- The claim's formula: `sorted[ceil((p/100)·n) − 1]` with the index clamped
to `[0, n − 1]`. -/
def specPercentile (sorted : List ℚ) (p : ℕ) : ℚ :=
  sorted.getD
    (min (sorted.length - 1) (max 0 (⌈((p : ℚ) * sorted.length) / 100⌉ - 1)).toNat) 0

theorem getPercentile_eval (sorted : List ℚ) (p k : ℕ)
    (hk : (max 0 (⌈((p : ℚ) * sorted.length) / 100⌉ - 1)).toNat = k) :
    getPercentile sorted p = sorted.getD k 0 := by
  unfold getPercentile
  rw [hk]

/-- Claim C8: for a non-empty sample list and `p ∈ {50, 95, 99}` the reported
percentile equals `sorted[ceil((p/100)·n) − 1]` with the index clamped to
`[0, n−1]`; an empty bucket reports all-zero percentiles, average and error
rate (never `NaN`); and samples `{100,…,500}` yield `p50 = 300`, `p95 = 500`,
`p99 = 500`, `avg = 300`. -/
theorem metrics_percentiles (arr : List ℚ) (p : ℕ)
    (hne : arr ≠ []) (hp : p = 50 ∨ p = 95 ∨ p = 99) :
    getPercentile (sortedLatencies arr) p = specPercentile (sortedLatencies arr) p ∧
    calculatePercentiles arr =
      ⟨getPercentile (sortedLatencies arr) 50, getPercentile (sortedLatencies arr) 95,
       getPercentile (sortedLatencies arr) 99, arr.sum / arr.length⟩ ∧
    calculatePercentiles [] = ⟨0, 0, 0, 0⟩ ∧
    (∀ e : ℕ, errorRate 0 e = 0) ∧
    calculatePercentiles [100, 200, 300, 400, 500] = ⟨300, 500, 500, 300⟩ := by
  have hlen : (sortedLatencies arr).length = arr.length :=
    (List.perm_insertionSort _ arr).length_eq
  have hpos : 1 ≤ (sortedLatencies arr).length := by
    rw [hlen]
    cases arr with
    | nil => exact absurd rfl hne
    | cons a l => simp
  refine ⟨?_, ?_, rfl, fun e => rfl, ?_⟩
  · unfold getPercentile specPercentile
    congr 1
    have hp100 : (p : ℚ) ≤ 100 := by
      rcases hp with rfl | rfl | rfl <;> norm_num
    have hceil : ⌈((p : ℚ) * (sortedLatencies arr).length) / 100⌉ ≤
        ((sortedLatencies arr).length : ℤ) := by
      rw [Int.ceil_le]
      push_cast
      rw [div_le_iff (by norm_num)]
      have hnn : (0 : ℚ) ≤ ((sortedLatencies arr).length : ℚ) := by positivity
      calc ((p : ℚ) * (sortedLatencies arr).length)
          ≤ 100 * (sortedLatencies arr).length := by
            apply mul_le_mul_of_nonneg_right hp100 hnn
        _ = ((sortedLatencies arr).length : ℚ) * 100 := by ring
    symm
    apply min_eq_right
    have hbound : max 0 (⌈((p : ℚ) * (sortedLatencies arr).length) / 100⌉ - 1) ≤
        (((sortedLatencies arr).length : ℤ) - 1) := by
      apply max_le
      · omega
      · omega
    omega
  · unfold calculatePercentiles
    rw [if_neg (by simpa [List.isEmpty_iff] using hne)]
  · unfold calculatePercentiles
    rw [if_neg (by simp)]
    have hsort : sortedLatencies [100, 200, 300, 400, 500] =
        ([100, 200, 300, 400, 500] : List ℚ) := by
      norm_num [sortedLatencies, List.insertionSort, List.orderedInsert]
    rw [hsort]
    have h50 : getPercentile ([100, 200, 300, 400, 500] : List ℚ) 50 = 300 := by
      rw [getPercentile_eval _ _ 2 ?_]
      · rfl
      · have hX : ⌈((50 : ℕ) : ℚ) *
            ((([100, 200, 300, 400, 500] : List ℚ).length : ℕ) : ℚ) / 100⌉ = (3 : ℤ) := by
          rw [Int.ceil_eq_iff]
          norm_num
        rw [hX]
        decide
    have h95 : getPercentile ([100, 200, 300, 400, 500] : List ℚ) 95 = 500 := by
      rw [getPercentile_eval _ _ 4 ?_]
      · rfl
      · have hX : ⌈((95 : ℕ) : ℚ) *
            ((([100, 200, 300, 400, 500] : List ℚ).length : ℕ) : ℚ) / 100⌉ = (5 : ℤ) := by
          rw [Int.ceil_eq_iff]
          norm_num
        rw [hX]
        decide
    have h99 : getPercentile ([100, 200, 300, 400, 500] : List ℚ) 99 = 500 := by
      rw [getPercentile_eval _ _ 4 ?_]
      · rfl
      · have hX : ⌈((99 : ℕ) : ℚ) *
            ((([100, 200, 300, 400, 500] : List ℚ).length : ℕ) : ℚ) / 100⌉ = (5 : ℤ) := by
          rw [Int.ceil_eq_iff]
          norm_num
        rw [hX]
        decide
    rw [h50, h95, h99]
    norm_num [List.sum_cons]

theorem metrics_percentiles_witness :
    getPercentile (sortedLatencies [100, 200, 300]) 50 =
      specPercentile (sortedLatencies [100, 200, 300]) 50 :=
  (metrics_percentiles [100, 200, 300] 50 (by simp) (Or.inl rfl)).1

end HrCore
